import Mathlib

/-
Verification of the multi-sorter agreement-comparison core described by the
repository's design document.  The repository itself is a tutorial notebook
that delegates the comparison to an external library, so the data model and
operations below are modelled from the specification's own reconstruction
(SpikeTrain Store, Pairwise Matcher, Agreement Graph Builder, configuration
validation).
-/

/-- Modelled from the spec: the notebook delegates spike-train handling to an
external library, so the SpikeTrain data model is taken from the
specification.  A spike train is an ordered sequence of spike timestamps. -/
abbrev SpikeTrain := List ℕ

/-- Modelled from the spec: a Sorter Result is a mapping from unit id to
SpikeTrain for one sorter run. -/
abbrev SorterResult := List (ℕ × SpikeTrain)

/-- Modelled from the spec: the Pairwise Matcher's deterministic two-pointer
greedy matching by ascending time.  A pair (t1, t2) is eligible when
|t1 - t2| ≤ tol; each spike matches at most one spike of the other train;
on failure the earlier unmatched spike is skipped.  Returns the list of
matched timestamp pairs in increasing time order. -/
def greedyMatch (tol : ℕ) : SpikeTrain → SpikeTrain → List (ℕ × ℕ)
  | [], _ => []
  | _ :: _, [] => []
  | a :: as, b :: bs =>
    if Nat.dist a b ≤ tol then (a, b) :: greedyMatch tol as bs
    else if a < b then greedyMatch tol as (b :: bs)
    else greedyMatch tol (a :: as) bs
termination_by t1 t2 => t1.length + t2.length

/-- Modelled from the spec: the match count M of the Pairwise Matcher. -/
def countMatches (tol : ℕ) (t1 t2 : SpikeTrain) : ℕ :=
  (greedyMatch tol t1 t2).length

/-- Modelled from the spec: agreement score
M / (|train1| + |train2| - M), with the degenerate both-empty input
explicitly handled to return the defined value 0. -/
def score (tol : ℕ) (t1 t2 : SpikeTrain) : ℚ :=
  if t1.isEmpty && t2.isEmpty then 0
  else (countMatches tol t1 t2 : ℚ) /
    ((t1.length : ℚ) + (t2.length : ℚ) - (countMatches tol t1 t2 : ℚ))

/-- Modelled from the spec: the validation error raised by the SpikeTrain
Store at ingestion. -/
inductive ValidationError where
  | notSorted : ValidationError
deriving DecidableEq

/-- Modelled from the spec: the sortedness check of the SpikeTrain Store
(timestamps non-decreasing). -/
def sortedCheck : List ℕ → Bool
  | [] => true
  | [_] => true
  | a :: b :: rest => a ≤ b && sortedCheck (b :: rest)

/-- Modelled from the spec: ingestion into the SpikeTrain Store rejects a
SpikeTrain whose timestamps are not sorted and never silently corrects it. -/
def ingestTrain (t : List ℕ) : Except ValidationError SpikeTrain :=
  if sortedCheck t then Except.ok t else Except.error ValidationError.notSorted

/-- Modelled from the spec: a node of the Agreement Graph is a
(sorter, unit) pair; an edge carries the pairwise agreement score. -/
structure Edge where
  sorterA : ℕ
  unitA : ℕ
  sorterB : ℕ
  unitB : ℕ
  weight : ℚ
deriving DecidableEq

/-- Modelled from the spec: deterministic enumeration of sorter results
tagged with their index. -/
def withIdx (i : ℕ) : List SorterResult → List (ℕ × SorterResult)
  | [] => []
  | s :: ss => (i, s) :: withIdx (i + 1) ss

/-- Modelled from the spec: ordered enumeration of all pairs of distinct
sorters (every element paired with every later element). -/
def pairsFrom : List (ℕ × SorterResult) → List ((ℕ × SorterResult) × (ℕ × SorterResult))
  | [] => []
  | x :: xs => xs.map (fun y => (x, y)) ++ pairsFrom xs

/-- Modelled from the spec: edges from one unit of sorter i against every
unit of sorter j, kept when score ≥ θ. -/
def edgeRow (tol : ℕ) (θ : ℚ) (i u : ℕ) (tu : SpikeTrain) (j : ℕ) :
    List (ℕ × SpikeTrain) → List Edge
  | [] => []
  | (v, tv) :: rest =>
    (if θ ≤ score tol tu tv then [Edge.mk i u j v (score tol tu tv)] else []) ++
      edgeRow tol θ i u tu j rest

/-- Modelled from the spec: edges between every unit of sorter i and every
unit of sorter j. -/
def edgeBlock (tol : ℕ) (θ : ℚ) (i j : ℕ) (sj : SorterResult) :
    List (ℕ × SpikeTrain) → List Edge
  | [] => []
  | (u, tu) :: rest => edgeRow tol θ i u tu j sj ++ edgeBlock tol θ i j sj rest

/-- Modelled from the spec: edges contributed by a list of sorter pairs. -/
def edgesOfPairs (tol : ℕ) (θ : ℚ) :
    List ((ℕ × SorterResult) × (ℕ × SorterResult)) → List Edge
  | [] => []
  | ((i, si), (j, sj)) :: rest =>
    edgeBlock tol θ i j sj si ++ edgesOfPairs tol θ rest

/-- Modelled from the spec: the Agreement Graph Builder.  For every pair of
distinct sorters and every pair of their units the Pairwise Matcher is
invoked and an edge is added exactly when score ≥ θ. -/
def buildEdges (tol : ℕ) (θ : ℚ) (ss : List SorterResult) : List Edge :=
  edgesOfPairs tol θ (pairsFrom (withIdx 0 ss))

/-- Modelled from the spec: the configuration errors of the comparison. -/
inductive ConfigError where
  | tooFewSorters : ConfigError
  | minMatchingTooLarge : ConfigError
deriving DecidableEq

/-- Modelled from the spec: the notebook's compare_multiple_sorters together
with the get_agreement_sorting configuration surface (minimum_matching).
Configuration is validated at the boundary, before any pairwise matching:
fewer than 2 sorter results, or minimum_matching exceeding the number of
sorters, is a configuration error. -/
def compareMultipleSorters (tol : ℕ) (θ : ℚ) (sortingList : List SorterResult)
    (minimumMatching : ℕ) : Except ConfigError (List Edge) :=
  if sortingList.length < 2 then Except.error ConfigError.tooFewSorters
  else if sortingList.length < minimumMatching then
    Except.error ConfigError.minMatchingTooLarge
  else Except.ok (buildEdges tol θ sortingList)

theorem greedyMatch_nil_left (tol : ℕ) (t2 : SpikeTrain) : greedyMatch tol [] t2 = [] := by
  cases t2 <;> simp [greedyMatch]

theorem greedyMatch_nil_right (tol : ℕ) (t1 : SpikeTrain) : greedyMatch tol t1 [] = [] := by
  cases t1 <;> simp [greedyMatch]

theorem greedyMatch_cons (tol a b : ℕ) (as bs : List ℕ) :
    greedyMatch tol (a :: as) (b :: bs) =
      if Nat.dist a b ≤ tol then (a, b) :: greedyMatch tol as bs
      else if a < b then greedyMatch tol as (b :: bs)
      else greedyMatch tol (a :: as) bs := by
  rw [greedyMatch]

theorem countMatches_nil_left (tol : ℕ) (t2 : SpikeTrain) : countMatches tol [] t2 = 0 := by
  simp [countMatches, greedyMatch_nil_left]

theorem countMatches_nil_right (tol : ℕ) (t1 : SpikeTrain) : countMatches tol t1 [] = 0 := by
  simp [countMatches, greedyMatch_nil_right]

theorem countMatches_cons (tol a b : ℕ) (as bs : List ℕ) :
    countMatches tol (a :: as) (b :: bs) =
      if Nat.dist a b ≤ tol then countMatches tol as bs + 1
      else if a < b then countMatches tol as (b :: bs)
      else countMatches tol (a :: as) bs := by
  simp only [countMatches, greedyMatch_cons]
  split
  · simp
  · split <;> rfl

theorem countMatches_comm_aux :
    ∀ n tol (t1 t2 : SpikeTrain), t1.length + t2.length ≤ n →
      countMatches tol t1 t2 = countMatches tol t2 t1 := by
  intro n
  induction n with
  | zero =>
    intro tol t1 t2 h
    match t1, t2 with
    | [], [] => rfl
    | [], _ :: _ => simp at h
    | _ :: _, [] => simp at h
    | _ :: _, _ :: _ => simp at h
  | succ n ih =>
    intro tol t1 t2 h
    match t1, t2 with
    | [], t2 => rw [countMatches_nil_left, countMatches_nil_right]
    | t1, [] => rw [countMatches_nil_left, countMatches_nil_right]
    | a :: as, b :: bs =>
      rw [countMatches_cons, countMatches_cons]
      simp only [List.length_cons] at h
      rcases le_or_lt (Nat.dist a b) tol with hd | hd
      · rw [if_pos hd, if_pos (by rwa [Nat.dist_comm])]
        rw [ih tol as bs (by omega)]
      · have hdd := hd
        rw [Nat.dist] at hdd
        have hab : a ≠ b := by intro e; subst e; omega
        have hd2 : ¬ (Nat.dist a b ≤ tol) := by rw [Nat.dist]; omega
        have hd3 : ¬ (Nat.dist b a ≤ tol) := by rw [Nat.dist]; omega
        rw [if_neg hd2, if_neg hd3]
        rcases lt_trichotomy a b with hlt | heq | hgt
        · rw [if_pos hlt, if_neg (by omega : ¬ b < a)]
          exact ih tol as (b :: bs) (by simp; omega)
        · exact absurd heq hab
        · rw [if_neg (by omega : ¬ a < b), if_pos hgt]
          exact ih tol (a :: as) bs (by simp; omega)

theorem countMatches_comm (tol : ℕ) (t1 t2 : SpikeTrain) :
    countMatches tol t1 t2 = countMatches tol t2 t1 :=
  countMatches_comm_aux (t1.length + t2.length) tol t1 t2 le_rfl

theorem countMatches_le_left_aux :
    ∀ n tol (t1 t2 : SpikeTrain), t1.length + t2.length ≤ n →
      countMatches tol t1 t2 ≤ t1.length := by
  intro n
  induction n with
  | zero =>
    intro tol t1 t2 h
    have h1 : t1.length = 0 := by omega
    have h2 : t2.length = 0 := by omega
    rw [List.length_eq_zero] at h1 h2
    subst h1; subst h2
    simp [countMatches_nil_left]
  | succ n ih =>
    intro tol t1 t2 h
    match t1, t2 with
    | [], t2 => simp [countMatches_nil_left]
    | t1, [] => simp [countMatches_nil_right]
    | a :: as, b :: bs =>
      rw [countMatches_cons]
      simp only [List.length_cons] at h ⊢
      split
      · have := ih tol as bs (by omega)
        omega
      · split
        · have := ih tol as (b :: bs) (by simp; omega)
          simp at this
          omega
        · have := ih tol (a :: as) bs (by simp; omega)
          simp at this
          omega

theorem countMatches_le_left (tol : ℕ) (t1 t2 : SpikeTrain) :
    countMatches tol t1 t2 ≤ t1.length :=
  countMatches_le_left_aux (t1.length + t2.length) tol t1 t2 le_rfl

theorem countMatches_le_right (tol : ℕ) (t1 t2 : SpikeTrain) :
    countMatches tol t1 t2 ≤ t2.length := by
  rw [countMatches_comm]
  exact countMatches_le_left tol t2 t1

theorem countMatches_self (tol : ℕ) (t : SpikeTrain) :
    countMatches tol t t = t.length := by
  induction t with
  | nil => simp [countMatches_nil_left]
  | cons a as ih =>
    rw [countMatches_cons, if_pos (by simp [Nat.dist_self])]
    simp [ih]

theorem countMatches_drop_aux :
    ∀ n : ℕ,
      (∀ tol (t1 : SpikeTrain) (b : ℕ) (bs : List ℕ), t1.length + bs.length < n →
        List.Sorted (· ≤ ·) t1 → List.Sorted (· ≤ ·) (b :: bs) →
        countMatches tol t1 (b :: bs) ≤ countMatches tol t1 bs + 1) ∧
      (∀ tol (a : ℕ) (as : List ℕ) (t2 : SpikeTrain), as.length + t2.length < n →
        List.Sorted (· ≤ ·) (a :: as) → List.Sorted (· ≤ ·) t2 →
        countMatches tol as t2 ≤ countMatches tol (a :: as) t2) := by
  intro n
  induction n with
  | zero =>
    exact ⟨fun _ _ _ _ h => absurd h (by omega), fun _ _ _ _ h => absurd h (by omega)⟩
  | succ n ih =>
    constructor
    · intro tol t1 b bs hlen h1 h2
      match t1 with
      | [] => simp [countMatches_nil_left]
      | a :: as =>
        have h1' : List.Sorted (· ≤ ·) as := (List.sorted_cons.mp h1).2
        have h2' : List.Sorted (· ≤ ·) bs := (List.sorted_cons.mp h2).2
        simp only [List.length_cons] at hlen
        rw [countMatches_cons]
        by_cases hd : Nat.dist a b ≤ tol
        · rw [if_pos hd]
          have h3 := ih.2 tol a as bs (by omega) h1 h2'
          omega
        · rw [if_neg hd]
          rcases lt_trichotomy a b with hlt | heq | hgt
          · rw [if_pos hlt]
            have hL1 := ih.1 tol as b bs (by omega) h1' h2
            have hL3 := ih.2 tol a as bs (by omega) h1 h2'
            omega
          · subst heq
            simp [Nat.dist_self] at hd
          · rw [if_neg (by omega : ¬ a < b)]
            omega
    · intro tol a as t2 hlen h1 h2
      match as, t2 with
      | [], t2 =>
        rw [countMatches_nil_left]
        exact Nat.zero_le _
      | a2 :: as2, [] =>
        rw [countMatches_nil_right, countMatches_nil_right]
      | a2 :: as2, b :: bs =>
        have h1' : List.Sorted (· ≤ ·) (a2 :: as2) := (List.sorted_cons.mp h1).2
        have haa2 : a ≤ a2 := (List.sorted_cons.mp h1).1 a2 (by simp)
        have h2' : List.Sorted (· ≤ ·) bs := (List.sorted_cons.mp h2).2
        simp only [List.length_cons] at hlen
        rw [countMatches_cons tol a b (a2 :: as2) bs]
        by_cases hd : Nat.dist a b ≤ tol
        · rw [if_pos hd]
          exact ih.1 tol (a2 :: as2) b bs (by simp; omega) h1' h2
        · rw [if_neg hd]
          rcases lt_trichotomy a b with hlt | heq | hgt
          · rw [if_pos hlt]
          · subst heq
            simp [Nat.dist_self] at hd
          · rw [if_neg (by omega : ¬ a < b)]
            rw [Nat.dist] at hd
            have ha2b : ¬ (Nat.dist a2 b ≤ tol) := by rw [Nat.dist]; omega
            rw [countMatches_cons tol a2 b as2 bs, if_neg ha2b,
              if_neg (by omega : ¬ a2 < b)]
            exact ih.2 tol a (a2 :: as2) bs (by simp; omega) h1 h2'

theorem countMatches_cons_right_le (tol : ℕ) (t1 : SpikeTrain) (b : ℕ) (bs : List ℕ)
    (h1 : List.Sorted (· ≤ ·) t1) (h2 : List.Sorted (· ≤ ·) (b :: bs)) :
    countMatches tol t1 (b :: bs) ≤ countMatches tol t1 bs + 1 :=
  (countMatches_drop_aux (t1.length + bs.length + 1)).1 tol t1 b bs (by omega) h1 h2

theorem countMatches_cons_left_le (tol : ℕ) (a : ℕ) (as : List ℕ) (t2 : SpikeTrain)
    (h1 : List.Sorted (· ≤ ·) (a :: as)) (h2 : List.Sorted (· ≤ ·) t2) :
    countMatches tol (a :: as) t2 ≤ countMatches tol as t2 + 1 := by
  rw [countMatches_comm tol (a :: as) t2, countMatches_comm tol as t2]
  exact countMatches_cons_right_le tol t2 a as h2 h1

theorem countMatches_mono_aux :
    ∀ n tol1 tol2 (t1 t2 : SpikeTrain), t1.length + t2.length ≤ n → tol1 ≤ tol2 →
      List.Sorted (· ≤ ·) t1 → List.Sorted (· ≤ ·) t2 →
      countMatches tol1 t1 t2 ≤ countMatches tol2 t1 t2 := by
  intro n
  induction n with
  | zero =>
    intro tol1 tol2 t1 t2 h htol h1 h2
    have h1' : t1.length = 0 := by omega
    have h2' : t2.length = 0 := by omega
    rw [List.length_eq_zero] at h1' h2'
    subst h1'; subst h2'
    rw [countMatches_nil_left]
    exact Nat.zero_le _
  | succ n ih =>
    intro tol1 tol2 t1 t2 h htol h1 h2
    match t1, t2 with
    | [], t2 => rw [countMatches_nil_left, countMatches_nil_left]
    | t1, [] => rw [countMatches_nil_right, countMatches_nil_right]
    | a :: as, b :: bs =>
      have h1' : List.Sorted (· ≤ ·) as := (List.sorted_cons.mp h1).2
      have h2' : List.Sorted (· ≤ ·) bs := (List.sorted_cons.mp h2).2
      simp only [List.length_cons] at h
      rw [countMatches_cons, countMatches_cons]
      by_cases hd1 : Nat.dist a b ≤ tol1
      · rw [if_pos hd1, if_pos (le_trans hd1 htol)]
        have := ih tol1 tol2 as bs (by omega) htol h1' h2'
        omega
      · rw [if_neg hd1]
        by_cases hd2 : Nat.dist a b ≤ tol2
        · rw [if_pos hd2]
          rcases lt_trichotomy a b with hlt | heq | hgt
          · rw [if_pos hlt]
            have hm := ih tol1 tol2 as (b :: bs) (by simp; omega) htol h1' h2
            have hdrop := countMatches_cons_right_le tol2 as b bs h1' h2
            omega
          · subst heq
            simp [Nat.dist_self] at hd1
          · rw [if_neg (by omega : ¬ a < b)]
            have hm := ih tol1 tol2 (a :: as) bs (by simp; omega) htol h1 h2'
            have hdrop := countMatches_cons_left_le tol2 a as bs h1 h2'
            omega
        · rw [if_neg hd2]
          rcases lt_trichotomy a b with hlt | heq | hgt
          · rw [if_pos hlt, if_pos hlt]
            exact ih tol1 tol2 as (b :: bs) (by simp; omega) htol h1' h2
          · subst heq
            simp [Nat.dist_self] at hd1
          · rw [if_neg (by omega : ¬ a < b), if_neg (by omega : ¬ a < b)]
            exact ih tol1 tol2 (a :: as) bs (by simp; omega) htol h1 h2'

theorem countMatches_mono (tol1 tol2 : ℕ) (t1 t2 : SpikeTrain) (htol : tol1 ≤ tol2)
    (h1 : List.Sorted (· ≤ ·) t1) (h2 : List.Sorted (· ≤ ·) t2) :
    countMatches tol1 t1 t2 ≤ countMatches tol2 t1 t2 :=
  countMatches_mono_aux (t1.length + t2.length) tol1 tol2 t1 t2 le_rfl htol h1 h2

theorem countMatches_lt_sum (tol : ℕ) (t1 t2 : SpikeTrain) (h : ¬(t1 = [] ∧ t2 = [])) :
    countMatches tol t1 t2 < t1.length + t2.length := by
  have hl := countMatches_le_left tol t1 t2
  have hr := countMatches_le_right tol t1 t2
  have : t1.length ≠ 0 ∨ t2.length ≠ 0 := by
    rcases not_and_or.mp h with h1 | h2
    · exact Or.inl (by simpa [List.length_eq_zero] using h1)
    · exact Or.inr (by simpa [List.length_eq_zero] using h2)
  omega

theorem score_nonempty (tol : ℕ) (t1 t2 : SpikeTrain) (h : ¬(t1 = [] ∧ t2 = [])) :
    score tol t1 t2 = (countMatches tol t1 t2 : ℚ) /
      ((t1.length : ℚ) + (t2.length : ℚ) - (countMatches tol t1 t2 : ℚ)) := by
  rw [score, if_neg]
  simp only [List.isEmpty_iff, Bool.and_eq_true, decide_eq_true_eq]
  · exact fun hc => h ⟨hc.1, hc.2⟩

theorem denom_pos (tol : ℕ) (t1 t2 : SpikeTrain) (h : ¬(t1 = [] ∧ t2 = [])) :
    0 < (t1.length : ℚ) + (t2.length : ℚ) - (countMatches tol t1 t2 : ℚ) := by
  have := countMatches_lt_sum tol t1 t2 h
  have hq : (countMatches tol t1 t2 : ℚ) < (t1.length : ℚ) + (t2.length : ℚ) := by
    exact_mod_cast this
  linarith

theorem greedyMatch_fst_sublist_aux :
    ∀ n tol (t1 t2 : SpikeTrain), t1.length + t2.length ≤ n →
      List.Sublist ((greedyMatch tol t1 t2).map Prod.fst) t1 := by
  intro n
  induction n with
  | zero =>
    intro tol t1 t2 h
    have h1 : t1.length = 0 := by omega
    have h2 : t2.length = 0 := by omega
    rw [List.length_eq_zero] at h1 h2
    subst h1; subst h2
    simp [greedyMatch_nil_left]
  | succ n ih =>
    intro tol t1 t2 h
    match t1, t2 with
    | [], t2 => simp [greedyMatch_nil_left]
    | t1, [] => simp [greedyMatch_nil_right]
    | a :: as, b :: bs =>
      simp only [List.length_cons] at h
      rw [greedyMatch_cons]
      by_cases hd : Nat.dist a b ≤ tol
      · rw [if_pos hd]
        simp only [List.map_cons]
        exact List.Sublist.cons₂ a (ih tol as bs (by omega))
      · rw [if_neg hd]
        by_cases hab : a < b
        · rw [if_pos hab]
          exact List.Sublist.cons a (ih tol as (b :: bs) (by simp; omega))
        · rw [if_neg hab]
          exact ih tol (a :: as) bs (by simp; omega)

theorem greedyMatch_fst_sublist (tol : ℕ) (t1 t2 : SpikeTrain) :
    List.Sublist ((greedyMatch tol t1 t2).map Prod.fst) t1 :=
  greedyMatch_fst_sublist_aux (t1.length + t2.length) tol t1 t2 le_rfl

theorem greedyMatch_snd_sublist_aux :
    ∀ n tol (t1 t2 : SpikeTrain), t1.length + t2.length ≤ n →
      List.Sublist ((greedyMatch tol t1 t2).map Prod.snd) t2 := by
  intro n
  induction n with
  | zero =>
    intro tol t1 t2 h
    have h1 : t1.length = 0 := by omega
    have h2 : t2.length = 0 := by omega
    rw [List.length_eq_zero] at h1 h2
    subst h1; subst h2
    simp [greedyMatch_nil_left]
  | succ n ih =>
    intro tol t1 t2 h
    match t1, t2 with
    | [], t2 => simp [greedyMatch_nil_left]
    | t1, [] => simp [greedyMatch_nil_right]
    | a :: as, b :: bs =>
      simp only [List.length_cons] at h
      rw [greedyMatch_cons]
      by_cases hd : Nat.dist a b ≤ tol
      · rw [if_pos hd]
        simp only [List.map_cons]
        exact List.Sublist.cons₂ b (ih tol as bs (by omega))
      · rw [if_neg hd]
        by_cases hab : a < b
        · rw [if_pos hab]
          exact ih tol as (b :: bs) (by simp; omega)
        · rw [if_neg hab]
          exact List.Sublist.cons b (ih tol (a :: as) bs (by simp; omega))

theorem greedyMatch_snd_sublist (tol : ℕ) (t1 t2 : SpikeTrain) :
    List.Sublist ((greedyMatch tol t1 t2).map Prod.snd) t2 :=
  greedyMatch_snd_sublist_aux (t1.length + t2.length) tol t1 t2 le_rfl

theorem greedyMatch_within_tol_aux :
    ∀ n tol (t1 t2 : SpikeTrain), t1.length + t2.length ≤ n →
      ∀ p ∈ greedyMatch tol t1 t2, Nat.dist p.1 p.2 ≤ tol := by
  intro n
  induction n with
  | zero =>
    intro tol t1 t2 h
    have h1 : t1.length = 0 := by omega
    have h2 : t2.length = 0 := by omega
    rw [List.length_eq_zero] at h1 h2
    subst h1; subst h2
    simp [greedyMatch_nil_left]
  | succ n ih =>
    intro tol t1 t2 h
    match t1, t2 with
    | [], t2 => simp [greedyMatch_nil_left]
    | t1, [] => simp [greedyMatch_nil_right]
    | a :: as, b :: bs =>
      simp only [List.length_cons] at h
      rw [greedyMatch_cons]
      by_cases hd : Nat.dist a b ≤ tol
      · rw [if_pos hd]
        intro p hp
        rcases List.mem_cons.mp hp with hp | hp
        · subst hp; exact hd
        · exact ih tol as bs (by omega) p hp
      · rw [if_neg hd]
        by_cases hab : a < b
        · rw [if_pos hab]
          exact ih tol as (b :: bs) (by simp; omega)
        · rw [if_neg hab]
          exact ih tol (a :: as) bs (by simp; omega)

theorem greedyMatch_within_tol (tol : ℕ) (t1 t2 : SpikeTrain) :
    ∀ p ∈ greedyMatch tol t1 t2, Nat.dist p.1 p.2 ≤ tol :=
  greedyMatch_within_tol_aux (t1.length + t2.length) tol t1 t2 le_rfl

/-- C1: the Pairwise Matcher returns the match count M of the ascending-time
greedy matching in which each matched pair of timestamps is within the
tolerance and each spike is matched at most once (the matched first and
second components are sublists of the respective trains), and the score is
M / (|train1| + |train2| - M); in particular for trains [10, 20, 30] and
[11, 21, 31] with tolerance 2 the match count is 3 and the score is 1. -/
theorem pairwise_matcher_correct (tol : ℕ) (t1 t2 : SpikeTrain) :
    List.Sublist ((greedyMatch tol t1 t2).map Prod.fst) t1 ∧
    List.Sublist ((greedyMatch tol t1 t2).map Prod.snd) t2 ∧
    List.Forall (fun p => Nat.dist p.1 p.2 ≤ tol) (greedyMatch tol t1 t2) ∧
    countMatches tol t1 t2 = (greedyMatch tol t1 t2).length ∧
    score tol t1 t2 = (countMatches tol t1 t2 : ℚ) /
      ((t1.length : ℚ) + (t2.length : ℚ) - (countMatches tol t1 t2 : ℚ)) ∧
    countMatches 2 [10, 20, 30] [11, 21, 31] = 3 ∧
    score 2 [10, 20, 30] [11, 21, 31] = 1 := by
  refine ⟨greedyMatch_fst_sublist tol t1 t2, greedyMatch_snd_sublist tol t1 t2, ?_, rfl, ?_, ?_, ?_⟩
  · exact List.forall_iff_forall_mem.mpr (greedyMatch_within_tol tol t1 t2)
  · by_cases h : t1 = [] ∧ t2 = []
    · rcases h with ⟨h1, h2⟩
      subst h1; subst h2
      simp [score, countMatches_nil_left]
    · exact score_nonempty tol t1 t2 h
  · norm_num [countMatches, greedyMatch_cons, greedyMatch_nil_left, greedyMatch_nil_right, Nat.dist]
  · norm_num [score, countMatches, greedyMatch_cons, greedyMatch_nil_left, greedyMatch_nil_right,
      Nat.dist]

/-- C2: the agreement score is symmetric in its two spike trains for every
tolerance. -/
theorem agreement_score_symm (tol : ℕ) (A B : SpikeTrain) :
    score tol A B = score tol B A := by
  unfold score
  rw [countMatches_comm tol A B, Bool.and_comm]
  by_cases h : (B.isEmpty && A.isEmpty) = true
  · rw [if_pos h, if_pos h]
  · rw [if_neg h, if_neg h]
    ring_nf

/-- C3: the agreement score of a non-empty spike train with itself is 1 for
every tolerance. -/
theorem self_agreement_score (tol : ℕ) (A : SpikeTrain) (h : A ≠ []) :
    score tol A A = 1 := by
  rw [score_nonempty tol A A (by tauto), countMatches_self]
  have hl : (A.length : ℚ) ≠ 0 := by
    simpa [List.length_eq_zero] using h
  rw [show (A.length : ℚ) + (A.length : ℚ) - (A.length : ℚ) = (A.length : ℚ) by ring]
  exact div_self hl

/-- Witness for C3 at the concrete train [10, 20, 30] with tolerance 0. -/
theorem self_agreement_score_witness : score 0 [10, 20, 30] [10, 20, 30] = 1 :=
  self_agreement_score 0 [10, 20, 30] (by decide)

/-- C4: with both input trains empty the Pairwise Matcher returns the defined
value 0; the else-branch denominator would be 0 on this degenerate input, so
the convention avoids the division by zero. -/
theorem empty_trains_score_zero (tol : ℕ) :
    score tol [] [] = 0 ∧
    ((([] : SpikeTrain).length : ℚ) + (([] : SpikeTrain).length : ℚ) -
      (countMatches tol [] [] : ℚ)) = 0 :=
  ⟨rfl, by simp [countMatches_nil_left]⟩

/-- C5: for sorted spike trains the agreement score is monotone in the
tolerance. -/
theorem score_mono_tolerance (tol1 tol2 : ℕ) (A B : SpikeTrain)
    (hA : List.Sorted (· ≤ ·) A) (hB : List.Sorted (· ≤ ·) B) (htol : tol1 ≤ tol2) :
    score tol1 A B ≤ score tol2 A B := by
  by_cases hemp : A = [] ∧ B = []
  · rcases hemp with ⟨h1, h2⟩
    subst h1; subst h2
    simp [score]
  · rw [score_nonempty tol1 A B hemp, score_nonempty tol2 A B hemp]
    have hd1 := denom_pos tol1 A B hemp
    have hd2 := denom_pos tol2 A B hemp
    have hm : (countMatches tol1 A B : ℚ) ≤ (countMatches tol2 A B : ℚ) := by
      exact_mod_cast countMatches_mono tol1 tol2 A B htol hA hB
    rw [div_le_div_iff₀ hd1 hd2]
    have hn0 : (0 : ℚ) ≤ (A.length : ℚ) + (B.length : ℚ) := by positivity
    nlinarith [mul_le_mul_of_nonneg_right hm hn0]

/-- Witness for C5 at the concrete trains [10, 20, 30] and [11, 21, 31] with
tolerances 0 ≤ 2. -/
theorem score_mono_tolerance_witness :
    score 0 [10, 20, 30] [11, 21, 31] ≤ score 2 [10, 20, 30] [11, 21, 31] :=
  score_mono_tolerance 0 2 [10, 20, 30] [11, 21, 31] (by decide) (by decide) (by decide)

theorem sortedCheck_iff : ∀ t : List ℕ, sortedCheck t = true ↔ List.Sorted (· ≤ ·) t := by
  intro t
  match t with
  | [] => simp [sortedCheck]
  | [a] => simp [sortedCheck]
  | a :: b :: rest =>
    rw [sortedCheck]
    simp only [Bool.and_eq_true, decide_eq_true_eq]
    rw [sortedCheck_iff (b :: rest)]
    constructor
    · rintro ⟨hab, hs⟩
      rw [List.sorted_cons]
      refine ⟨?_, hs⟩
      intro x hx
      rcases List.mem_cons.mp hx with hx | hx
      · subst hx; exact hab
      · exact le_trans hab ((List.sorted_cons.mp hs).1 x hx)
    · intro hs
      exact ⟨(List.sorted_cons.mp hs).1 b (by simp), (List.sorted_cons.mp hs).2⟩

theorem mem_edgeRow (tol : ℕ) (θ : ℚ) (i u : ℕ) (tu : SpikeTrain) (j : ℕ) (e : Edge) :
    ∀ l : List (ℕ × SpikeTrain),
      e ∈ edgeRow tol θ i u tu j l ↔
        ∃ v tv, (v, tv) ∈ l ∧ θ ≤ score tol tu tv ∧ e = Edge.mk i u j v (score tol tu tv) := by
  intro l
  induction l with
  | nil => simp [edgeRow]
  | cons p rest ih =>
    obtain ⟨v, tv⟩ := p
    rw [edgeRow]
    simp only [List.mem_append, ih]
    constructor
    · rintro (h | ⟨v', tv', hmem, hsc, he⟩)
      · by_cases hsc : θ ≤ score tol tu tv
        · rw [if_pos hsc] at h
          simp only [List.mem_singleton] at h
          exact ⟨v, tv, by simp, hsc, h⟩
        · rw [if_neg hsc] at h
          simp at h
      · exact ⟨v', tv', by simp [hmem], hsc, he⟩
    · rintro ⟨v', tv', hmem, hsc, he⟩
      rcases List.mem_cons.mp hmem with hm | hm
      · injection hm with h1 h2
        subst h1; subst h2
        left
        rw [if_pos hsc]
        simp [he]
      · exact Or.inr ⟨v', tv', hm, hsc, he⟩

theorem mem_edgeBlock (tol : ℕ) (θ : ℚ) (i j : ℕ) (sj : SorterResult) (e : Edge) :
    ∀ si : List (ℕ × SpikeTrain),
      e ∈ edgeBlock tol θ i j sj si ↔
        ∃ u tu, (u, tu) ∈ si ∧ e ∈ edgeRow tol θ i u tu j sj := by
  intro si
  induction si with
  | nil => simp [edgeBlock]
  | cons p rest ih =>
    obtain ⟨u, tu⟩ := p
    rw [edgeBlock]
    simp only [List.mem_append, ih]
    constructor
    · rintro (h | ⟨u', tu', hmem, h⟩)
      · exact ⟨u, tu, by simp, h⟩
      · exact ⟨u', tu', by simp [hmem], h⟩
    · rintro ⟨u', tu', hmem, h⟩
      rcases List.mem_cons.mp hmem with hm | hm
      · injection hm with h1 h2
        subst h1; subst h2
        exact Or.inl h
      · exact Or.inr ⟨u', tu', hm, h⟩

theorem mem_edgesOfPairs (tol : ℕ) (θ : ℚ) (e : Edge) :
    ∀ ps : List ((ℕ × SorterResult) × (ℕ × SorterResult)),
      e ∈ edgesOfPairs tol θ ps ↔
        ∃ i si j sj, ((i, si), (j, sj)) ∈ ps ∧ e ∈ edgeBlock tol θ i j sj si := by
  intro ps
  induction ps with
  | nil => simp [edgesOfPairs]
  | cons p rest ih =>
    obtain ⟨⟨i, si⟩, ⟨j, sj⟩⟩ := p
    rw [edgesOfPairs]
    simp only [List.mem_append, ih]
    constructor
    · rintro (h | ⟨i', si', j', sj', hmem, h⟩)
      · exact ⟨i, si, j, sj, by simp, h⟩
      · exact ⟨i', si', j', sj', by simp [hmem], h⟩
    · rintro ⟨i', si', j', sj', hmem, h⟩
      rcases List.mem_cons.mp hmem with hm | hm
      · injection hm with h1 h2
        injection h1 with h1a h1b
        injection h2 with h2a h2b
        subst h1a; subst h1b; subst h2a; subst h2b
        exact Or.inl h
      · exact Or.inr ⟨i', si', j', sj', hm, h⟩

theorem mem_withIdx_ge :
    ∀ (l : List SorterResult) (i : ℕ) (p : ℕ × SorterResult), p ∈ withIdx i l → i ≤ p.1 := by
  intro l
  induction l with
  | nil => intro i p hp; simp [withIdx] at hp
  | cons s rest ih =>
    intro i p hp
    rw [withIdx] at hp
    rcases List.mem_cons.mp hp with hm | hm
    · subst hm; simp
    · exact le_trans (by omega) (ih (i + 1) p hm)

theorem mem_pairsFrom_withIdx_lt :
    ∀ (l : List SorterResult) (i : ℕ) (p q : ℕ × SorterResult),
      (p, q) ∈ pairsFrom (withIdx i l) → p.1 < q.1 := by
  intro l
  induction l with
  | nil => intro i p q hp; simp [withIdx, pairsFrom] at hp
  | cons s rest ih =>
    intro i p q hp
    rw [withIdx, pairsFrom] at hp
    rcases List.mem_append.mp hp with hm | hm
    · rcases List.mem_map.mp hm with ⟨y, hy, he⟩
      injection he with h1 h2
      subst h1; subst h2
      have := mem_withIdx_ge rest (i + 1) y hy
      simp
      omega
    · exact ih (i + 1) p q hm

/-- C8: the Agreement Graph contains an edge exactly for those cross-sorter
unit pairs whose pairwise score is at least the threshold θ (so a score
exactly equal to θ is included and any score below θ is excluded), and the
edge carries that score. -/
theorem agreement_graph_edge_iff (tol : ℕ) (θ : ℚ) (ss : List SorterResult) (e : Edge) :
    e ∈ buildEdges tol θ ss ↔
      ∃ i si j sj u tu v tv,
        ((i, si), (j, sj)) ∈ pairsFrom (withIdx 0 ss) ∧
        (u, tu) ∈ si ∧ (v, tv) ∈ sj ∧
        θ ≤ score tol tu tv ∧
        e = Edge.mk i u j v (score tol tu tv) := by
  rw [buildEdges, mem_edgesOfPairs]
  constructor
  · rintro ⟨i, si, j, sj, hpair, hblk⟩
    rcases (mem_edgeBlock tol θ i j sj e si).mp hblk with ⟨u, tu, hmem, hrow⟩
    rcases (mem_edgeRow tol θ i u tu j e sj).mp hrow with ⟨v, tv, hmem2, hsc, he⟩
    exact ⟨i, si, j, sj, u, tu, v, tv, hpair, hmem, hmem2, hsc, he⟩
  · rintro ⟨i, si, j, sj, u, tu, v, tv, hpair, hmem, hmem2, hsc, he⟩
    exact ⟨i, si, j, sj, hpair, (mem_edgeBlock tol θ i j sj e si).mpr
      ⟨u, tu, hmem, (mem_edgeRow tol θ i u tu j e sj).mpr ⟨v, tv, hmem2, hsc, he⟩⟩⟩

/-- C9: every edge of the Agreement Graph connects units of two distinct
sorters; the builder never creates an edge inside one sorter. -/
theorem edges_cross_sorter (tol : ℕ) (θ : ℚ) (ss : List SorterResult) (e : Edge)
    (h : e ∈ buildEdges tol θ ss) : e.sorterA ≠ e.sorterB := by
  rw [buildEdges, mem_edgesOfPairs] at h
  rcases h with ⟨i, si, j, sj, hpair, hblk⟩
  rcases (mem_edgeBlock tol θ i j sj e si).mp hblk with ⟨u, tu, _, hrow⟩
  rcases (mem_edgeRow tol θ i u tu j e sj).mp hrow with ⟨v, tv, _, _, he⟩
  have hij := mem_pairsFrom_withIdx_lt ss 0 (i, si) (j, sj) hpair
  subst he
  simp only at hij ⊢
  omega

/-- Witness for C9: the concrete two-sorter input with one unit each
produces an edge between sorter 0 and sorter 1. -/
theorem edges_cross_sorter_witness :
    (Edge.mk 0 5 1 7 (score 0 [0] [0])).sorterA ≠
      (Edge.mk 0 5 1 7 (score 0 [0] [0])).sorterB := by
  refine edges_cross_sorter 0 0 [[(5, [0])], [(7, [0])]] _ ?_
  have hsc : (0 : ℚ) ≤ score 0 [0] [0] := by
    norm_num [score, countMatches, greedyMatch_cons, greedyMatch_nil_left, Nat.dist]
  simp [buildEdges, withIdx, pairsFrom, edgesOfPairs, edgeBlock, edgeRow, if_pos hsc]

/-- C6: with fewer than 2 sorter results, or with minimum_matching exceeding
the number of sorters, the comparison reports a configuration error, and the
result is the same for any sorter results of that count and any tolerance
and threshold, so the error precedes any pairwise matching. -/
theorem config_error_before_matching (tol : ℕ) (θ : ℚ) (ss : List SorterResult) (mm : ℕ)
    (h : ss.length < 2 ∨ ss.length < mm) :
    (∃ err : ConfigError, compareMultipleSorters tol θ ss mm = Except.error err) ∧
    (∀ (tol' : ℕ) (θ' : ℚ) (ss' : List SorterResult), ss'.length = ss.length →
      compareMultipleSorters tol' θ' ss' mm = compareMultipleSorters tol θ ss mm) := by
  by_cases h2 : ss.length < 2
  · constructor
    · exact ⟨ConfigError.tooFewSorters, by unfold compareMultipleSorters; rw [if_pos h2]⟩
    · intro tol' θ' ss' hlen
      unfold compareMultipleSorters
      rw [if_pos h2, if_pos (by omega : ss'.length < 2)]
  · have h3 : ss.length < mm := by tauto
    constructor
    · exact ⟨ConfigError.minMatchingTooLarge, by
        unfold compareMultipleSorters
        rw [if_neg h2, if_pos h3]⟩
    · intro tol' θ' ss' hlen
      unfold compareMultipleSorters
      rw [if_neg h2, if_pos h3, if_neg (by omega : ¬ ss'.length < 2),
        if_pos (by omega : ss'.length < mm)]

/-- Witness for C6: minimum_matching 3 with only 2 sorter results is a
configuration error, independent of the sorter contents. -/
theorem config_error_before_matching_witness :
    (∃ err : ConfigError,
      compareMultipleSorters 0 0 [[], []] 3 = Except.error err) ∧
    (∀ (tol' : ℕ) (θ' : ℚ) (ss' : List SorterResult),
      ss'.length = ([[], []] : List SorterResult).length →
      compareMultipleSorters tol' θ' ss' 3 = compareMultipleSorters 0 0 [[], []] 3) :=
  config_error_before_matching 0 0 [[], []] 3 (Or.inr (by decide))

/-- C7: the SpikeTrain Store rejects a train whose timestamps are not sorted
with a validation error, an accepted train is returned unchanged and sorted
(never silently corrected), and once inputs are validated the per-pair score
denominator is nonzero away from the handled degenerate input, so the score
computation cannot fail mid-computation. -/
theorem ingest_validation :
    (∀ t : List ℕ, ¬ List.Sorted (· ≤ ·) t →
      ingestTrain t = Except.error ValidationError.notSorted) ∧
    (∀ t t' : List ℕ, ingestTrain t = Except.ok t' → t' = t ∧ List.Sorted (· ≤ ·) t') ∧
    (∀ tol (t1 t2 : SpikeTrain), ¬(t1 = [] ∧ t2 = []) →
      ((t1.length : ℚ) + (t2.length : ℚ) - (countMatches tol t1 t2 : ℚ)) ≠ 0) := by
  refine ⟨?_, ?_, ?_⟩
  · intro t hns
    have hc : ¬ (sortedCheck t = true) := fun hc => hns ((sortedCheck_iff t).mp hc)
    unfold ingestTrain
    rw [if_neg hc]
  · intro t t' hok
    unfold ingestTrain at hok
    by_cases hc : sortedCheck t = true
    · rw [if_pos hc] at hok
      injection hok with h
      subst h
      exact ⟨rfl, (sortedCheck_iff t).mp hc⟩
    · rw [if_neg hc] at hok
      exact absurd hok (by simp)
  · intro tol t1 t2 h
    exact (denom_pos tol t1 t2 h).ne'

/-- Witness for C7: the unsorted train [2, 1] is rejected, the sorted train
[1, 2] is returned unchanged and sorted, and the denominator at the
concrete non-degenerate pair is nonzero. -/
theorem ingest_validation_witness :
    ingestTrain [2, 1] = Except.error ValidationError.notSorted ∧
    ([1, 2] = ([1, 2] : List ℕ) ∧ List.Sorted (· ≤ ·) ([1, 2] : List ℕ)) ∧
    ((([10, 20, 30] : SpikeTrain).length : ℚ) + (([11] : SpikeTrain).length : ℚ) -
      (countMatches 2 [10, 20, 30] [11] : ℚ)) ≠ 0 :=
  ⟨ingest_validation.1 [2, 1] (by decide),
   ingest_validation.2.1 [1, 2] [1, 2] rfl,
   ingest_validation.2.2 2 [10, 20, 30] [11] (by simp)⟩

/-- C10: the workflow in the notebook calls the comparison with exactly two
sorter results and minimum_matching 2, so the configuration checks pass and
the configuration-error branch is unreachable for this invocation. -/
theorem notebook_invocation_ok (tol : ℕ) (θ : ℚ) (s1 s2 : SorterResult) :
    compareMultipleSorters tol θ [s1, s2] 2 = Except.ok (buildEdges tol θ [s1, s2]) := by
  unfold compareMultipleSorters
  norm_num
